import Mathlib

/-!
Verification development for the optimized-django-restql core: the query
language parser (spec section 4.1), the field resolver (section 4.2), the
eager-load planner (section 4.3), the request pipeline around them
(sections 4.3, 6, 7), and the list-flattening utility
(django_restql/tools.py).

The parser, resolver, planner and request pipeline are not shipped under
src/ of this snapshot (only their tests, the models and tools.py are), so
they are modelled from the specification; where the tests in
src/tests/testapp/tests/test_optimized_views.py pin the observable
behavior of the real mixins, the model follows the tests, which are code
of this repository and therefore authoritative.
-/

/-- Modelled from the spec: a storage column reference (section 3). It is
either a column of the current level or a column reached through a named
to-one relation, as in the view option only = \x7b"author_str":
"author__first_name"\x7d. -/
inductive ColRef : Type where
  | col : String → ColRef
  | rel : String → String → ColRef
deriving DecidableEq

/-! ## Selection Tree (spec section 3) and Selection Parser (section 4.1) -/

mutual
/-- Modelled from the spec: a Selection Tree node. The Bool is the
wildcard marker of the level; the field list keeps insertion order. -/
inductive STree : Type where
  | node : Bool → FList → STree
deriving DecidableEq
/-- Modelled from the spec: the ordered field list of one level. -/
inductive FList : Type where
  | nil : FList
  | cons : FSpec → FList → FList
deriving DecidableEq
/-- Modelled from the spec: one field item of a level: a plain inclusion
with optional alias, an exclusion, or a name with optional alias and a
nested child level. -/
inductive FSpec : Type where
  | plain : String → Option String → FSpec
  | minus : String → FSpec
  | sub : String → Option String → STree → FSpec
deriving DecidableEq
end

def nameF : FSpec → String
  | .plain n _ => n
  | .minus n => n
  | .sub n _ _ => n

def namesL : FList → List String
  | .nil => []
  | .cons f fs => nameF f :: namesL fs

/-- Names carrying the exclusion marker at one level. -/
def minusNames : FList → List String
  | .nil => []
  | .cons (.minus n) fs => n :: minusNames fs
  | .cons _ fs => minusNames fs

def hasMinusL : FList → Bool
  | .nil => false
  | .cons (.minus _) _ => true
  | .cons _ fs => hasMinusL fs

/-- Whether the level holds a bare positive item (no children). -/
def hasPlainL : FList → Bool
  | .nil => false
  | .cons (.plain _ _) _ => true
  | .cons _ fs => hasPlainL fs

/-- Looks up the child item declared for a name at this level. -/
def findSub : FList → String → Option (Option String × STree)
  | .nil, _ => none
  | .cons (.sub n a t) fs, m => if n = m then some (a, t) else findSub fs m
  | .cons _ fs, m => findSub fs m

def nodupStr : List String → Bool
  | [] => true
  | x :: xs => !(xs.contains x) && nodupStr xs

/-- Modelled from the spec: level validity (section 3 invariant): names
are unique, and a level in exclusion mode (wildcard or any minus item)
holds no bare positive item; nested child items are allowed in both
modes, as the query with minus text alongside a nested author level in
test_using_exclude_operator shows. -/
def levelOk (w : Bool) (fs : FList) : Bool :=
  nodupStr (namesL fs) && (if w || hasMinusL fs then !(hasPlainL fs) else true)

/-- Modelled from the spec: the tokens of the query grammar
(section 4.1). -/
inductive Tok : Type where
  | lb : Tok
  | rb : Tok
  | comma : Tok
  | colon : Tok
  | dash : Tok
  | star : Tok
  | ident : String → Tok
deriving DecidableEq

def isIdentChar (c : Char) : Bool := c.isAlphanum || c == '_'

/-- Modelled from the spec: the tokenizer of section 4.1. Whitespace is
insignificant; identifiers are letters, digits and underscore; fuel
bounds the recursion and one unit per consumed character suffices. -/
def tokenize : Nat → List Char → Except String (List Tok)
  | 0, _ => .error "tokenizer out of fuel"
  | _ + 1, [] => .ok []
  | fuel + 1, c :: cs =>
    if c = ' ' then tokenize fuel cs
    else if c = '\x7b' then (tokenize fuel cs).map (Tok.lb :: ·)
    else if c = '\x7d' then (tokenize fuel cs).map (Tok.rb :: ·)
    else if c = ',' then (tokenize fuel cs).map (Tok.comma :: ·)
    else if c = ':' then (tokenize fuel cs).map (Tok.colon :: ·)
    else if c = '-' then (tokenize fuel cs).map (Tok.dash :: ·)
    else if c = '*' then (tokenize fuel cs).map (Tok.star :: ·)
    else if isIdentChar c then
      (tokenize fuel (cs.dropWhile isIdentChar)).map
        (Tok.ident (String.mk (c :: cs.takeWhile isIdentChar)) :: ·)
    else .error "unexpected character"

/-- One parsed field item: either the wildcard marker or a field spec. -/
inductive PItem : Type where
  | star : PItem
  | item : FSpec → PItem
deriving DecidableEq

mutual
/-- Modelled from the spec: parses one field item of the grammar of
section 4.1: star, minus name, or optionally aliased name with an
optional nested level. -/
def parseItem : Nat → List Tok → Except String (PItem × List Tok)
  | 0, _ => .error "out of fuel"
  | fuel + 1, ts =>
    match ts with
    | .star :: rest => .ok (.star, rest)
    | .dash :: .ident n :: rest => .ok (.item (.minus n), rest)
    | .ident a :: .colon :: .ident n :: rest =>
      match rest with
      | .lb :: _ =>
        match parseLevel fuel rest with
        | .error e => .error e
        | .ok (t, r) => .ok (.item (.sub n (some a) t), r)
      | _ => .ok (.item (.plain n (some a)), rest)
    | .ident n :: rest =>
      match rest with
      | .lb :: _ =>
        match parseLevel fuel rest with
        | .error e => .error e
        | .ok (t, r) => .ok (.item (.sub n none t), r)
      | _ => .ok (.item (.plain n none), rest)
    | _ => .error "expected a field item"

/-- Modelled from the spec: parses a comma separated field list,
returning the wildcard marker, the items and the remaining tokens. -/
def parseItems : Nat → List Tok → Except String (Bool × FList × List Tok)
  | 0, _ => .error "out of fuel"
  | fuel + 1, ts =>
    match parseItem fuel ts with
    | .error e => .error e
    | .ok (it, rest) =>
      match rest with
      | .comma :: rest2 =>
        match parseItems fuel rest2 with
        | .error e => .error e
        | .ok (w, fs, rest3) =>
          match it with
          | .star => .ok (true, fs, rest3)
          | .item f => .ok (w, .cons f fs, rest3)
      | _ =>
        match it with
        | .star => .ok (true, FList.nil, rest)
        | .item f => .ok (false, FList.cons f FList.nil, rest)

/-- Modelled from the spec: parses one level, an opening brace, a field
list and a closing brace, enforcing the level invariant of section 3. -/
def parseLevel : Nat → List Tok → Except String (STree × List Tok)
  | 0, _ => .error "out of fuel"
  | fuel + 1, ts =>
    match ts with
    | .lb :: ts2 =>
      match parseItems fuel ts2 with
      | .error e => .error e
      | .ok (w, fs, rest) =>
        match rest with
        | .rb :: rest2 =>
          if levelOk w fs then .ok (.node w fs, rest2)
          else .error "mixed polarity or duplicate field at one level"
        | _ => .error "expected closing brace"
    | _ => .error "expected opening brace"
end

/-- Modelled from the spec: the parse contract of section 4.1, from a
query string to a Selection Tree or a syntax error. -/
def parseQuery (s : String) : Except String STree :=
  match tokenize (s.length + 1) s.toList with
  | .error e => .error e
  | .ok ts =>
    match parseLevel (2 * ts.length + 4) ts with
    | .error e => .error e
    | .ok (t, rest) =>
      match rest with
      | [] => .ok t
      | _ => .error "trailing tokens after the top level"

example : parseQuery "\x7btitle,author\x7bid\x7d\x7d" =
    .ok (.node false (.cons (.plain "title" none)
      (.cons (.sub "author" none (.node false (.cons (.plain "id" none) .nil)))
        .nil))) := by rfl

example : parseQuery "\x7b-text, author\x7b-first_name\x7d\x7d" =
    .ok (.node false (.cons (.minus "text")
      (.cons (.sub "author" none (.node false (.cons (.minus "first_name") .nil)))
        .nil))) := by rfl

example : parseQuery "\x7b*\x7d" = .ok (.node true .nil) := by rfl

example : (parseQuery "\x7btitle, author\x7b").isOk = false := by rfl

example : (parseQuery "\x7btitle, -text\x7d").isOk = false := by rfl

/-! ## Schema Adapter (spec section 3)

The Schema Adapter is supplied per end point by the surrounding
framework; the concrete schemas below transcribe the serializers and
view options of src/tests/testapp/tests/test_optimized_views.py against
the models of src/tests/testapp/models.py. -/

mutual
/-- Modelled from the spec: a Schema Adapter level: storage table name,
the row identifier column, and the declared output fields in order. -/
inductive Schema : Type where
  | mk : String → String → SList → Schema
deriving DecidableEq
/-- Modelled from the spec: the ordered declared field list of a schema
level. -/
inductive SList : Type where
  | nil : SList
  | cons : SField → SList → SList
deriving DecidableEq
/-- Modelled from the spec: one Schema Adapter entry (section 3): a plain
column field, a derived field carrying its extra_storage_refs (the only
map of the view), a to-one relation with its foreign key column and
nested schema, or a to-many relation with its nested schema. -/
inductive SField : Type where
  | col : String → String → SField
  | computed : String → List ColRef → SField
  | toOne : String → String → Schema → SField
  | toMany : String → Schema → SField
deriving DecidableEq
end

def fieldNameS : SField → String
  | .col n _ => n
  | .computed n _ => n
  | .toOne n _ _ => n
  | .toMany n _ => n

def declaredNames : SList → List String
  | .nil => []
  | .cons f fs => fieldNameS f :: declaredNames fs

def Schema.table : Schema → String
  | .mk t _ _ => t

def Schema.pk : Schema → String
  | .mk _ p _ => p

def Schema.fields : Schema → SList
  | .mk _ _ fs => fs

def lookupField : SList → String → Option SField
  | .nil, _ => none
  | .cons f fs, n => if fieldNameS f = n then some f else lookupField fs n

/-- Names of the to-many relations declared at a schema level. -/
def toManyNames : SList → List String
  | .nil => []
  | .cons (.toMany n _) fs => n :: toManyNames fs
  | .cons _ fs => toManyNames fs

/-- SampleAuthorSerializer: fields id, first_name, last_name over the
sampleauthor table. -/
def sampleAuthorSchema : Schema :=
  .mk "sampleauthor" "id"
    (.cons (.col "id" "id")
      (.cons (.col "first_name" "first_name")
        (.cons (.col "last_name" "last_name") .nil)))

/-- SamplePostSerializer under SampleViewSet: fields id, text, title,
author (to-one, foreign key column author_id), first_letter (derived,
only entry title) and author_str (derived, only entry
author__first_name). -/
def samplePostSchema : Schema :=
  .mk "samplepost" "id"
    (.cons (.col "id" "id")
      (.cons (.col "text" "text")
        (.cons (.col "title" "title")
          (.cons (.toOne "author" "author_id" sampleAuthorSchema)
            (.cons (.computed "first_letter" [.col "title"])
              (.cons (.computed "author_str" [.rel "author" "first_name"])
                .nil))))))

/-- SampleTagSerializer: all fields of SampleTag. -/
def sampleTagSchema : Schema :=
  .mk "sampletag" "id"
    (.cons (.col "id" "id") (.cons (.col "name" "name") .nil))

/-- SamplePostSerializerAllFieldsSerializer with the monkeypatched
prefetch of test_m2m_field: the post schema extended with the to-many
tags relation. -/
def samplePostAllSchema : Schema :=
  .mk "samplepost" "id"
    (.cons (.col "id" "id")
      (.cons (.col "text" "text")
        (.cons (.col "title" "title")
          (.cons (.toOne "author" "author_id" sampleAuthorSchema)
            (.cons (.computed "first_letter" [.col "title"])
              (.cons (.computed "author_str" [.rel "author" "first_name"])
                (.cons (.toMany "tags" sampleTagSchema) .nil)))))))

/-- ShortSamplePostSerializer: fields id, text of a post. -/
def shortPostSchema : Schema :=
  .mk "samplepost" "id"
    (.cons (.col "id" "id") (.cons (.col "text" "text") .nil))

/-- SampleAuthorFullSerializer under SampleAuthorViewSet: author fields
plus the to-many posts relation. -/
def sampleAuthorFullSchema : Schema :=
  .mk "sampleauthor" "id"
    (.cons (.col "id" "id")
      (.cons (.col "first_name" "first_name")
        (.cons (.col "last_name" "last_name")
          (.cons (.toMany "posts" shortPostSchema) .nil))))

/-! ## Resolved Field Set (spec section 3) and Field Resolver (4.2) -/

/-- Modelled from the spec: resolver errors of section 4.2. -/
inductive RErr : Type where
  | unknownField : String → RErr
  | invalidNesting : String → RErr
deriving DecidableEq

mutual
/-- Modelled from the spec: a Resolved Field Set, the rendered output
field sequence of one level (section 3). -/
inductive RSet : Type where
  | mk : RList → RSet
deriving DecidableEq
/-- Modelled from the spec: the ordered rendered sequence. -/
inductive RList : Type where
  | nil : RList
  | cons : RField → RList → RList
deriving DecidableEq
/-- Modelled from the spec: one rendered field: a plain column field
(output name, alias, storage column), a derived field with its
extra_storage_refs, or a relation with its nested Resolved Field Set
(to-one relations also carry their foreign key column). -/
inductive RField : Type where
  | plain : String → Option String → String → RField
  | comp : String → Option String → List ColRef → RField
  | relOne : String → Option String → String → RSet → RField
  | relMany : String → Option String → RSet → RField
deriving DecidableEq
end

def rfieldName : RField → String
  | .plain n _ _ => n
  | .comp n _ _ => n
  | .relOne n _ _ _ => n
  | .relMany n _ _ => n

def namesR : RList → List String
  | .nil => []
  | .cons f fs => rfieldName f :: namesR fs

def RSet.names : RSet → List String
  | .mk l => namesR l

/-- The nested Resolved Field Set rendered under a relation name. -/
def nestedR : RList → String → Option RSet
  | .nil, _ => none
  | .cons (.relOne n _ _ r) fs, m => if n = m then some r else nestedR fs m
  | .cons (.relMany n _ r) fs, m => if n = m then some r else nestedR fs m
  | .cons _ fs, m => nestedR fs m

def RSet.nested : RSet → String → Option RSet
  | .mk l, m => nestedR l m

/-- Modelled from the spec: required_storage of one level (section 4.2):
the storage_ref of every rendered non-relation field plus every rendered
field extra_storage_refs; relation fields contribute nothing at this
level. -/
def requiredStorageL : RList → List ColRef
  | .nil => []
  | .cons (.plain _ _ c) fs => .col c :: requiredStorageL fs
  | .cons (.comp _ _ ex) fs => ex ++ requiredStorageL fs
  | .cons (.relOne _ _ _ _) fs => requiredStorageL fs
  | .cons (.relMany _ _ _) fs => requiredStorageL fs

def RSet.requiredStorage : RSet → List ColRef
  | .mk l => requiredStorageL l

mutual
/-- Modelled from the spec: NO_QUERY default resolution (section 4.2):
every declared field is rendered, to-one relations recurse with
NO_QUERY, and to-many relations are suppressed unless named in the
query (Scenario C; the open question of section 9 records this
asymmetry as deliberate, and test_many_to_one_rel_ignored_when_no_query
and test_m2m_field_no_query pin it). -/
def resolveNoQS : Schema → RSet
  | .mk _ _ fs => .mk (resolveNoQL fs)
/-- NO_QUERY default resolution of a declared field list. -/
def resolveNoQL : SList → RList
  | .nil => .nil
  | .cons (.col n c) fs => .cons (.plain n none c) (resolveNoQL fs)
  | .cons (.computed n ex) fs => .cons (.comp n none ex) (resolveNoQL fs)
  | .cons (.toOne n fk nested) fs =>
    .cons (.relOne n none fk (resolveNoQS nested)) (resolveNoQL fs)
  | .cons (.toMany _ _) fs => resolveNoQL fs
end

/-- Modelled from the spec: the minimal reference projection of a
relation named without children under a plain inclusion list
(section 4.2): the row identifier only. -/
def minimalR (s : Schema) : RSet :=
  .mk (.cons (.plain s.pk none s.pk) .nil)

mutual
def sizeT : STree → Nat
  | .node _ fs => sizeL fs + 1
def sizeL : FList → Nat
  | .nil => 1
  | .cons f fs => sizeF f + sizeL fs + 1
def sizeF : FSpec → Nat
  | .plain _ _ => 1
  | .minus _ => 1
  | .sub _ _ t => sizeT t + 1
end

mutual
def sizeS : Schema → Nat
  | .mk _ _ fs => sizeSL fs + 1
def sizeSL : SList → Nat
  | .nil => 1
  | .cons f fs => sizeSF f + sizeSL fs + 1
def sizeSF : SField → Nat
  | .col _ _ => 1
  | .computed _ _ => 1
  | .toOne _ _ s => sizeS s + 1
  | .toMany _ s => sizeS s + 1
end

/-- Fuel that always suffices for one resolve or plan pass: the walk
descends the tree and the schema together and every step consumes at
most one unit per tree node or declared field. -/
def fuelFor (t : STree) (s : Schema) : Nat := sizeT t + sizeS s + 1

mutual
/-- Modelled from the spec: the strict resolve contract of section 4.2,
merging a Selection Tree with a Schema Adapter: a level in exclusion
mode (wildcard marker or any minus item) renders all declared fields
minus the exclusions; a plain inclusion list renders exactly the named
fields in order. Fuel bounds the recursion; sizeT of the tree plus one
always suffices. -/
def resolveT : Nat → STree → Schema → Except RErr RSet
  | 0, _, _ => .error (.unknownField "resolver out of fuel")
  | fuel + 1, .node w fs, s =>
    if w || hasMinusL fs then
      match resolveEx fuel s.fields fs with
      | .error e => .error e
      | .ok l => .ok (.mk l)
    else
      match resolveInc fuel fs s with
      | .error e => .error e
      | .ok l => .ok (.mk l)

/-- Modelled from the spec: resolution of a plain inclusion list
(section 4.2): every named field must resolve against the schema or the
whole resolution fails with UnknownFieldError; child nesting on a
non-relation field fails with InvalidNestingError; a relation named
without children renders its minimal reference projection. -/
def resolveInc : Nat → FList → Schema → Except RErr RList
  | 0, _, _ => .error (.unknownField "resolver out of fuel")
  | _ + 1, .nil, _ => .ok .nil
  | fuel + 1, .cons f fs, s =>
    match f with
    | .plain n a =>
      match lookupField s.fields n with
      | some (.col _ c) => (resolveInc fuel fs s).map (.cons (.plain n a c) ·)
      | some (.computed _ ex) => (resolveInc fuel fs s).map (.cons (.comp n a ex) ·)
      | some (.toOne _ fk nested) =>
        (resolveInc fuel fs s).map (.cons (.relOne n a fk (minimalR nested)) ·)
      | some (.toMany _ nested) =>
        (resolveInc fuel fs s).map (.cons (.relMany n a (minimalR nested)) ·)
      | none => .error (.unknownField n)
    | .minus n => .error (.unknownField n)
    | .sub n a child =>
      match lookupField s.fields n with
      | some (.toOne _ fk nested) =>
        match resolveT fuel child nested with
        | .error e => .error e
        | .ok r => (resolveInc fuel fs s).map (.cons (.relOne n a fk r) ·)
      | some (.toMany _ nested) =>
        match resolveT fuel child nested with
        | .error e => .error e
        | .ok r => (resolveInc fuel fs s).map (.cons (.relMany n a r) ·)
      | some _ => .error (.invalidNesting n)
      | none => .error (.unknownField n)

/-- Modelled from the spec: resolution of an exclusion mode level
(section 4.2): walk the declared fields in schema order, drop every
excluded name, recurse into a child level when one is given for the
name, and otherwise render the NO_QUERY default of the field. -/
def resolveEx : Nat → SList → FList → Except RErr RList
  | 0, _, _ => .error (.unknownField "resolver out of fuel")
  | _ + 1, .nil, _ => .ok .nil
  | fuel + 1, .cons sf sfs, fs =>
    if (minusNames fs).contains (fieldNameS sf) then resolveEx fuel sfs fs
    else
      match findSub fs (fieldNameS sf) with
      | some (a, child) =>
        match sf with
        | .toOne n fk nested =>
          match resolveT fuel child nested with
          | .error e => .error e
          | .ok r => (resolveEx fuel sfs fs).map (.cons (.relOne n a fk r) ·)
        | .toMany n nested =>
          match resolveT fuel child nested with
          | .error e => .error e
          | .ok r => (resolveEx fuel sfs fs).map (.cons (.relMany n a r) ·)
        | .col n _ => .error (.invalidNesting n)
        | .computed n _ => .error (.invalidNesting n)
      | none =>
        match sf with
        | .col n c => (resolveEx fuel sfs fs).map (.cons (.plain n none c) ·)
        | .computed n ex => (resolveEx fuel sfs fs).map (.cons (.comp n none ex) ·)
        | .toOne n fk nested =>
          (resolveEx fuel sfs fs).map (.cons (.relOne n none fk (resolveNoQS nested)) ·)
        | .toMany n nested =>
          (resolveEx fuel sfs fs).map (.cons (.relMany n none (resolveNoQS nested)) ·)
end

/-- Modelled from the spec: the resolve contract over an optional query
tree, NO_QUERY falling back to the schema defaults (section 4.2). -/
def resolveQ : Option STree → Schema → Except RErr RSet
  | none, s => .ok (resolveNoQS s)
  | some t, s => resolveT (fuelFor t s) t s

/-! ## Access Plan (spec section 3) and Eager-Load Planner (4.3) -/

mutual
/-- Modelled from the spec: an Access Plan node (section 3): the direct
column projection, the to-one eager join map and the to-many batched
fetch map of one level. -/
inductive Plan : Type where
  | mk : List String → PList → PList → Plan
deriving DecidableEq
/-- Modelled from the spec: a relation name to nested plan map. -/
inductive PList : Type where
  | nil : PList
  | cons : String → Plan → PList → PList
deriving DecidableEq
end

def Plan.direct : Plan → List String
  | .mk d _ _ => d

def Plan.toOneEager : Plan → PList
  | .mk _ o _ => o

def Plan.toManyFetch : Plan → PList
  | .mk _ _ m => m

/-- Keep-first order preserving deduplication of a column list,
matching the de-duplication by ColumnRef identity of section 4.3. -/
def dedupAux : List String → List String → List String
  | [], _ => []
  | x :: xs, seen =>
    if seen.contains x then dedupAux xs seen else x :: dedupAux xs (x :: seen)

def dedupStr (xs : List String) : List String := dedupAux xs []

def localCols : List ColRef → List String
  | [] => []
  | .col c :: ex => c :: localCols ex
  | .rel _ _ :: ex => localCols ex

mutual
/-- Modelled from the spec and the tests: the plan of a level fetched
with schema defaults. It projects the row identifier, every declared
column, the local extra_storage_refs of derived fields and the foreign
key column of every to-one relation, eager joins every to-one relation
with its own default plan, and performs no to-many fetch
(test_no_query, test_m2m_field_no_query). -/
def planAllS : Schema → Plan
  | .mk _ pk fs =>
    let dm := planAllL fs
    .mk (dedupStr (pk :: dm.1)) dm.2 .nil
def planAllL : SList → (List String × PList)
  | .nil => ([], .nil)
  | .cons (.col _ c) fs =>
    let dm := planAllL fs
    (c :: dm.1, dm.2)
  | .cons (.computed _ ex) fs =>
    let dm := planAllL fs
    (localCols ex ++ dm.1, dm.2)
  | .cons (.toOne n fk nested) fs =>
    let dm := planAllL fs
    (fk :: dm.1, .cons n (planAllS nested) dm.2)
  | .cons (.toMany _ _) fs => planAllL fs
end

/-- Modelled from the spec: the minimal plan of a relation named
without children: its row identifier only (section 4.2). -/
def minimalPlan (s : Schema) : Plan := .mk [s.pk] .nil .nil

def addDirect : Plan → List String → Plan
  | .mk d o m, cs => .mk (dedupStr (d ++ cs)) o m

/-- Ensures the to-one eager map holds an entry for the relation that
projects at least its row identifier and the given column. -/
def addEagerCols : String → String → String → PList → PList
  | n, pk, c, .nil => .cons n (.mk (dedupStr [pk, c]) .nil .nil) .nil
  | n, pk, c, .cons k p ps =>
    if k = n then .cons k (addDirect p [pk, c]) ps
    else .cons k p (addEagerCols n pk c ps)

/-- Modelled from the spec: folding the extra_storage_refs of a derived
field into the plan (section 4.3 item 3): a local column joins the
direct projection; a column behind a to-one relation contributes the
relations foreign key column and an eager join projecting the related
row identifier and that column (test_custom_only and
test_custom_only_in_foreign_key). -/
def foldExtras (ex : List ColRef) (s : Schema)
    (acc : List String × PList × PList) : List String × PList × PList :=
  match ex with
  | [] => acc
  | .col c :: rest =>
    let r := foldExtras rest s acc
    (c :: r.1, r.2.1, r.2.2)
  | .rel rn c :: rest =>
    let r := foldExtras rest s acc
    match lookupField s.fields rn with
    | some (.toOne _ fk nested) => (fk :: r.1, addEagerCols rn nested.pk c r.2.1, r.2.2)
    | _ => r

mutual
/-- Modelled from the spec and the tests: the planner over a Selection
Tree (section 4.3). A level in exclusion mode is planned as a schema
default fetch of every declared column, which is what the repository
tests pin for the exclude operator and the wildcard
(test_using_exclude_operator, test_using_all_fields): exclusion
narrows the rendered output, not the projection. A plain inclusion
level projects the row identifier plus the storage columns of the named
fields, eager joins named to-one relations and batch fetches named
to-many relations; names the schema does not declare are skipped here,
the strict resolver being the place that rejects them
(test_incorrect_parameters). -/
def planTree : Nat → STree → Schema → Plan
  | 0, _, _ => .mk [] .nil .nil
  | fuel + 1, .node w fs, s =>
    if w || hasMinusL fs then planAllS s
    else
      let dom := planItems fuel fs s
      .mk (dedupStr (s.pk :: dom.1)) dom.2.1 dom.2.2

/-- Planner walk of a plain inclusion list, returning direct columns,
to-one eager entries and to-many fetch entries. -/
def planItems : Nat → FList → Schema → (List String × PList × PList)
  | 0, _, _ => ([], .nil, .nil)
  | _ + 1, .nil, _ => ([], .nil, .nil)
  | fuel + 1, .cons f fs, s =>
    let rest := planItems fuel fs s
    match f with
    | .plain n _ =>
      match lookupField s.fields n with
      | some (.col _ c) => (c :: rest.1, rest.2.1, rest.2.2)
      | some (.computed _ ex) => foldExtras ex s rest
      | some (.toOne _ fk nested) =>
        (fk :: rest.1, .cons n (minimalPlan nested) rest.2.1, rest.2.2)
      | some (.toMany _ nested) =>
        (rest.1, rest.2.1, .cons n (minimalPlan nested) rest.2.2)
      | none => rest
    | .minus _ => rest
    | .sub n _ child =>
      match lookupField s.fields n with
      | some (.toOne _ fk nested) =>
        (fk :: rest.1, .cons n (planTree fuel child nested) rest.2.1, rest.2.2)
      | some (.toMany _ nested) =>
        (rest.1, rest.2.1, .cons n (planTree fuel child nested) rest.2.2)
      | _ => rest
end

/-- Modelled from the spec: the plan contract over an optional query
tree, NO_QUERY falling back to the schema default fetch. -/
def planQ : Option STree → Schema → Plan
  | none, s => planAllS s
  | some t, s => planTree (fuelFor t s) t s

def qualify (tbl : String) (c : String) : String := tbl ++ "." ++ c

mutual
/-- The qualified column set of the single main storage fetch of a
plan: its direct columns on the own table plus, recursively, the
columns of every to-one eager join; to-many fetches run as separate
queries and are excluded. This mirrors what get_fields_queried of the
test helpers reads off the first executed SQL query. -/
def mainColsP : Schema → Plan → List String
  | s, .mk d o _ => d.map (qualify s.table) ++ mainColsL s o
def mainColsL : Schema → PList → List String
  | _, .nil => []
  | s, .cons n p ps =>
    (match lookupField s.fields n with
     | some (.toOne _ _ nested) => mainColsP nested p
     | _ => []) ++ mainColsL s ps
end

/-! ## Plan Executor round trips (spec sections 2, 6) -/

mutual
/-- Modelled from the spec: the storage round trips a plan costs beyond
the single main fetch (section 6): a to-one eager join is part of the
main fetch and adds none of its own; every to-many entry is one
batched fetch keyed by parent identifiers, independent of the row
count, plus whatever its own nested plan adds. The row count argument
is carried to state that independence. -/
def extraTripsP : Plan → Nat → Nat
  | .mk _ o m, rows => extraOneL o rows + extraManyL m rows
def extraOneL : PList → Nat → Nat
  | .nil, _ => 0
  | .cons _ p ps, rows => extraTripsP p rows + extraOneL ps rows
def extraManyL : PList → Nat → Nat
  | .nil, _ => 0
  | .cons _ p ps, rows => 1 + extraTripsP p rows + extraManyL ps rows
end

/-- Modelled from the spec: total storage round trips of executing a
plan for a result set of the given row count: one main fetch plus the
batched to-many fetches. -/
def execTrips (p : Plan) (rows : Nat) : Nat := 1 + extraTripsP p rows

mutual
/-- Number of to-many fetch entries anywhere in a plan tree. -/
def toManyCountP : Plan → Nat
  | .mk _ o m => toManyCountOne o + toManyCountMany m
def toManyCountOne : PList → Nat
  | .nil => 0
  | .cons _ p ps => toManyCountP p + toManyCountOne ps
def toManyCountMany : PList → Nat
  | .nil => 0
  | .cons _ p ps => 1 + toManyCountP p + toManyCountMany ps
end

/-! ## Request pipeline (spec sections 4.3, 6, 7, 9) -/

inductive Method : Type where
  | get : Method
  | put : Method
deriving DecidableEq

/-- Outcome of one request: the HTTP class status and the qualified
column list of the main storage fetch, none when no storage access
happened. -/
structure Response : Type where
  status : Nat
  fetched : Option (List String)
deriving DecidableEq

/-- Modelled from the spec: the effective force_query_usage flag: the
view level value overrides the process wide setting when present
(test_force_query_usage_defined_in_view). -/
def effectiveForce (viewFlag : Option Bool) (settingsFlag : Bool) : Bool :=
  viewFlag.getD settingsFlag

/-- Modelled from the spec and the tests: the request pipeline composed
of the two mixins (section 9). The force_query_usage policy gates only
safe reads and fires before any parsing or storage access
(section 4.3); an absent query falls back to the schema default fetch;
a malformed query fails before storage (Scenario D); otherwise the
eager loading mixin builds its plan, skipping unknown names, and the
fetch executes, after which the strict rendering resolution of the
dynamic fields mixin may still reject the query as a 400 — after the
storage access, as test_incorrect_parameters pins by asserting the
executed SQL columns of a request that returns 400. -/
def handle (m : Method) (viewFlag : Option Bool) (settingsFlag : Bool)
    (query : Option String) (s : Schema) : Response :=
  if m = .get && effectiveForce viewFlag settingsFlag && query.isNone then
    Response.mk 400 none
  else
    match query with
    | none => Response.mk 200 (some (mainColsP s (planAllS s)))
    | some qs =>
      match parseQuery qs with
      | .error _ => Response.mk 400 none
      | .ok t =>
        let cols := mainColsP s (planTree (fuelFor t s) t s)
        match resolveT (fuelFor t s) t s with
        | .ok _ => Response.mk 200 (some cols)
        | .error _ => Response.mk 400 (some cols)

/-- The Access Plan a query string yields against a schema, the empty
plan when the string does not parse. -/
def planOf (q : String) (s : Schema) : Plan :=
  match parseQuery q with
  | .ok t => planTree (fuelFor t s) t s
  | .error _ => Plan.mk [] .nil .nil

/-- The strict resolution a query string yields against a schema. -/
def resolveOf (q : String) (s : Schema) : Except RErr RSet :=
  match parseQuery q with
  | .ok t => resolveT (fuelFor t s) t s
  | .error _ => .error (.unknownField "syntax error")

/-- Looks a relation name up in a plan map. -/
def lookupP : PList → String → Option Plan
  | .nil, _ => none
  | .cons n p ps, m => if n = m then some p else lookupP ps m

/-! ## Alias erasure (for the alias transparency claim) -/

mutual
/-- A Selection Tree with every alias removed; two queries that differ
only in aliasing strip to the same tree. -/
def stripT : STree → STree
  | .node w fs => .node w (stripL fs)
def stripL : FList → FList
  | .nil => .nil
  | .cons f fs => .cons (stripF f) (stripL fs)
def stripF : FSpec → FSpec
  | .plain n _ => .plain n none
  | .minus n => .minus n
  | .sub n _ t => .sub n none (stripT t)
end

mutual
/-- A Resolved Field Set with every alias removed. -/
def eraseAliasR : RSet → RSet
  | .mk l => .mk (eraseAliasL l)
def eraseAliasL : RList → RList
  | .nil => .nil
  | .cons f fs => .cons (eraseAliasF f) (eraseAliasL fs)
def eraseAliasF : RField → RField
  | .plain n _ c => .plain n none c
  | .comp n _ ex => .comp n none ex
  | .relOne n _ fk r => .relOne n none fk (eraseAliasR r)
  | .relMany n _ r => .relMany n none (eraseAliasR r)
end

/-! ## The flatten utility of src/django_restql/tools.py -/

mutual
/-- A Python value as flatten sees it: a non-container leaf or one of
the three container kinds the isinstance check of flatten recognizes
(list, tuple, set); a set is carried in its iteration order. -/
inductive Item : Type where
  | atom : Nat → Item
  | list : ItemList → Item
  | tup : ItemList → Item
  | set : ItemList → Item
deriving DecidableEq
/-- The elements of a container, in order. -/
inductive ItemList : Type where
  | nil : ItemList
  | cons : Item → ItemList → ItemList
deriving DecidableEq
end

def ItemList.append : ItemList → ItemList → ItemList
  | .nil, ys => ys
  | .cons x xs, ys => .cons x (ItemList.append xs ys)

/-- The isinstance(item, (list, tuple, set)) test of flatten. -/
def isContainer : Item → Bool
  | .atom _ => false
  | .list _ => true
  | .tup _ => true
  | .set _ => true

/-- Transcribed from src/django_restql/tools.py: flatten walks the
items; a container contributes its own recursive flattening (result +=
flatten(item)), anything else is appended as is
(result.append(item)). -/
def flatten : ItemList → ItemList
  | .nil => .nil
  | .cons (.atom a) rest => .cons (.atom a) (flatten rest)
  | .cons (.list l) rest => (flatten l).append (flatten rest)
  | .cons (.tup l) rest => (flatten l).append (flatten rest)
  | .cons (.set l) rest => (flatten l).append (flatten rest)

def allAtoms : ItemList → Bool
  | .nil => true
  | .cons it rest => !(isContainer it) && allAtoms rest

def ItemList.toList : ItemList → List Item
  | .nil => []
  | .cons x xs => x :: ItemList.toList xs

/-- The depth first, left to right enumeration of the non-container
leaves of an item list, stated independently of flatten. -/
def leavesL : ItemList → List Item
  | .nil => []
  | .cons (.atom a) rest => Item.atom a :: leavesL rest
  | .cons (.list l) rest => leavesL l ++ leavesL rest
  | .cons (.tup l) rest => leavesL l ++ leavesL rest
  | .cons (.set l) rest => leavesL l ++ leavesL rest

/-! ## Helper lemmas -/

mutual
theorem extraTripsP_eq_toManyCount : ∀ p rows, extraTripsP p rows = toManyCountP p
  | .mk d o m, rows => by
    simp [extraTripsP, toManyCountP, extraOneL_eq_toManyCount o rows,
      extraManyL_eq_toManyCount m rows]
theorem extraOneL_eq_toManyCount : ∀ ps rows, extraOneL ps rows = toManyCountOne ps
  | .nil, _ => rfl
  | .cons n p ps, rows => by
    simp [extraOneL, toManyCountOne, extraTripsP_eq_toManyCount p rows,
      extraOneL_eq_toManyCount ps rows]
theorem extraManyL_eq_toManyCount : ∀ ps rows, extraManyL ps rows = toManyCountMany ps
  | .nil, _ => rfl
  | .cons n p ps, rows => by
    simp [extraManyL, toManyCountMany, extraTripsP_eq_toManyCount p rows,
      extraManyL_eq_toManyCount ps rows]
end

theorem allAtoms_append :
    ∀ xs ys, allAtoms (ItemList.append xs ys) = (allAtoms xs && allAtoms ys)
  | .nil, ys => by simp [ItemList.append, allAtoms]
  | .cons x xs, ys => by
    simp [ItemList.append, allAtoms, allAtoms_append xs ys, Bool.and_assoc]

theorem toList_append :
    ∀ xs ys, (ItemList.append xs ys).toList = xs.toList ++ ys.toList
  | .nil, _ => rfl
  | .cons x xs, ys => by simp [ItemList.append, ItemList.toList, toList_append xs ys]

theorem flatten_allAtoms : ∀ xs, allAtoms (flatten xs) = true
  | .nil => rfl
  | .cons (.atom a) rest => by
    simp [flatten, allAtoms, isContainer, flatten_allAtoms rest]
  | .cons (.list l) rest => by
    simp [flatten, allAtoms_append, flatten_allAtoms l, flatten_allAtoms rest]
  | .cons (.tup l) rest => by
    simp [flatten, allAtoms_append, flatten_allAtoms l, flatten_allAtoms rest]
  | .cons (.set l) rest => by
    simp [flatten, allAtoms_append, flatten_allAtoms l, flatten_allAtoms rest]

theorem flatten_flat_id : ∀ xs, allAtoms xs = true → flatten xs = xs
  | .nil, _ => rfl
  | .cons (.atom a) rest, h => by
    simp only [allAtoms, isContainer, Bool.not_false, Bool.true_and] at h
    simp [flatten, flatten_flat_id rest h]
  | .cons (.list l) rest, h => by simp [allAtoms, isContainer] at h
  | .cons (.tup l) rest, h => by simp [allAtoms, isContainer] at h
  | .cons (.set l) rest, h => by simp [allAtoms, isContainer] at h

theorem flatten_leaves : ∀ xs, (flatten xs).toList = leavesL xs
  | .nil => rfl
  | .cons (.atom a) rest => by
    simp [flatten, ItemList.toList, leavesL, flatten_leaves rest]
  | .cons (.list l) rest => by
    simp [flatten, toList_append, leavesL, flatten_leaves l, flatten_leaves rest]
  | .cons (.tup l) rest => by
    simp [flatten, toList_append, leavesL, flatten_leaves l, flatten_leaves rest]
  | .cons (.set l) rest => by
    simp [flatten, toList_append, leavesL, flatten_leaves l, flatten_leaves rest]

/-- Backbone of the wildcard law: a successful exclusion mode
resolution renders exactly the declared names minus the excluded
ones, in declaration order. -/
theorem resolveEx_names : ∀ fuel sfs fs l,
    resolveEx fuel sfs fs = .ok l →
    namesR l = (declaredNames sfs).filter (fun n => !((minusNames fs).contains n))
  | 0, sfs, fs, l => by
    intro h
    simp [resolveEx] at h
  | fuel + 1, .nil, fs, l => by
    intro h
    simp only [resolveEx, Except.ok.injEq] at h
    subst h
    rfl
  | fuel + 1, .cons sf sfs, fs, l => by
    intro h
    simp only [resolveEx] at h
    cases hm : (minusNames fs).contains (fieldNameS sf) with
    | true =>
      rw [hm] at h
      simp only [if_true] at h
      have ih := resolveEx_names fuel sfs fs l h
      have hm2 : fieldNameS sf ∈ minusNames fs := by simpa using hm
      simp [declaredNames, List.filter_cons, hm2, ih]
    | false =>
      rw [hm] at h
      simp only [Bool.false_eq_true, if_false] at h
      have hm2 : fieldNameS sf ∉ minusNames fs := by simpa using hm
      cases hf : findSub fs (fieldNameS sf) with
      | some p =>
        rw [hf] at h
        obtain ⟨a, child⟩ := p
        cases sf with
        | col n c => simp at h
        | computed n ex => simp at h
        | toOne n fk nested =>
          dsimp only at h
          cases hc : resolveT fuel child nested with
          | error e => rw [hc] at h; exact absurd h (by simp)
          | ok r =>
            rw [hc] at h
            cases hx : resolveEx fuel sfs fs with
            | error e => rw [hx] at h; exact absurd h (by simp [Except.map])
            | ok rest =>
              rw [hx] at h
              simp only [Except.map, Except.ok.injEq] at h
              subst h
              have ih := resolveEx_names fuel sfs fs rest hx
              simp only [fieldNameS] at hm2
              simp [namesR, rfieldName, declaredNames, List.filter_cons, fieldNameS, hm2, ih]
        | toMany n nested =>
          dsimp only at h
          cases hc : resolveT fuel child nested with
          | error e => rw [hc] at h; exact absurd h (by simp)
          | ok r =>
            rw [hc] at h
            cases hx : resolveEx fuel sfs fs with
            | error e => rw [hx] at h; exact absurd h (by simp [Except.map])
            | ok rest =>
              rw [hx] at h
              simp only [Except.map, Except.ok.injEq] at h
              subst h
              have ih := resolveEx_names fuel sfs fs rest hx
              simp only [fieldNameS] at hm2
              simp [namesR, rfieldName, declaredNames, List.filter_cons, fieldNameS, hm2, ih]
      | none =>
        rw [hf] at h
        cases sf with
        | col n c =>
          dsimp only at h
          cases hx : resolveEx fuel sfs fs with
          | error e => rw [hx] at h; exact absurd h (by simp [Except.map])
          | ok rest =>
            rw [hx] at h
            simp only [Except.map, Except.ok.injEq] at h
            subst h
            have ih := resolveEx_names fuel sfs fs rest hx
            simp only [fieldNameS] at hm2
            simp [namesR, rfieldName, declaredNames, List.filter_cons, fieldNameS, hm2, ih]
        | computed n ex =>
          dsimp only at h
          cases hx : resolveEx fuel sfs fs with
          | error e => rw [hx] at h; exact absurd h (by simp [Except.map])
          | ok rest =>
            rw [hx] at h
            simp only [Except.map, Except.ok.injEq] at h
            subst h
            have ih := resolveEx_names fuel sfs fs rest hx
            simp only [fieldNameS] at hm2
            simp [namesR, rfieldName, declaredNames, List.filter_cons, fieldNameS, hm2, ih]
        | toOne n fk nested =>
          dsimp only at h
          cases hx : resolveEx fuel sfs fs with
          | error e => rw [hx] at h; exact absurd h (by simp [Except.map])
          | ok rest =>
            rw [hx] at h
            simp only [Except.map, Except.ok.injEq] at h
            subst h
            have ih := resolveEx_names fuel sfs fs rest hx
            simp only [fieldNameS] at hm2
            simp [namesR, rfieldName, declaredNames, List.filter_cons, fieldNameS, hm2, ih]
        | toMany n nested =>
          dsimp only at h
          cases hx : resolveEx fuel sfs fs with
          | error e => rw [hx] at h; exact absurd h (by simp [Except.map])
          | ok rest =>
            rw [hx] at h
            simp only [Except.map, Except.ok.injEq] at h
            subst h
            have ih := resolveEx_names fuel sfs fs rest hx
            simp only [fieldNameS] at hm2
            simp [namesR, rfieldName, declaredNames, List.filter_cons, fieldNameS, hm2, ih]

/-- Every to-many relation name is a declared name. -/
theorem toManyNames_subset : ∀ sl n, n ∈ toManyNames sl → n ∈ declaredNames sl
  | .nil, n => by intro h; simp [toManyNames] at h
  | .cons (.col m c) sfs, n => by
    intro h
    simp only [toManyNames] at h
    simp only [declaredNames, fieldNameS, List.mem_cons]
    exact Or.inr (toManyNames_subset sfs n h)
  | .cons (.computed m ex) sfs, n => by
    intro h
    simp only [toManyNames] at h
    simp only [declaredNames, fieldNameS, List.mem_cons]
    exact Or.inr (toManyNames_subset sfs n h)
  | .cons (.toOne m fk nested) sfs, n => by
    intro h
    simp only [toManyNames] at h
    simp only [declaredNames, fieldNameS, List.mem_cons]
    exact Or.inr (toManyNames_subset sfs n h)
  | .cons (.toMany m nested) sfs, n => by
    intro h
    simp only [toManyNames, List.mem_cons] at h
    simp only [declaredNames, fieldNameS, List.mem_cons]
    exact h.imp id (toManyNames_subset sfs n)

/-- NO_QUERY default resolution renders exactly the declared names
minus the to-many relation names, in declaration order. -/
theorem resolveNoQL_names : ∀ sl, nodupStr (declaredNames sl) = true →
    namesR (resolveNoQL sl) =
      (declaredNames sl).filter (fun n => !((toManyNames sl).contains n))
  | .nil, _ => rfl
  | .cons sf sfs, hnd => by
    have h1 : (!(declaredNames sfs).contains (fieldNameS sf) &&
        nodupStr (declaredNames sfs)) = true := hnd
    rw [Bool.and_eq_true] at h1
    have hnm : fieldNameS sf ∉ declaredNames sfs := by
      have h2 := h1.1
      simp at h2
      exact h2
    have hnd2 : nodupStr (declaredNames sfs) = true := h1.2
    have ih := resolveNoQL_names sfs hnd2
    cases sf with
    | col m c =>
      have hnot : m ∉ toManyNames sfs := fun hmem =>
        hnm (toManyNames_subset sfs m hmem)
      simp [resolveNoQL, namesR, rfieldName, declaredNames, toManyNames, fieldNameS,
        List.filter_cons, hnot, ih]
    | computed m ex =>
      have hnot : m ∉ toManyNames sfs := fun hmem =>
        hnm (toManyNames_subset sfs m hmem)
      simp [resolveNoQL, namesR, rfieldName, declaredNames, toManyNames, fieldNameS,
        List.filter_cons, hnot, ih]
    | toOne m fk nested =>
      have hnot : m ∉ toManyNames sfs := fun hmem =>
        hnm (toManyNames_subset sfs m hmem)
      simp [resolveNoQL, namesR, rfieldName, declaredNames, toManyNames, fieldNameS,
        List.filter_cons, hnot, ih]
    | toMany m nested =>
      simp only [fieldNameS] at hnm
      simp [resolveNoQL, declaredNames, toManyNames, fieldNameS, List.filter_cons, ih]
      apply List.filter_congr
      intro x hx
      have hxm : x ≠ m := fun he => hnm (he ▸ hx)
      simp [hxm]

/-! ## Claim theorems -/

/-- C1: for the query string with title and nested author id against the
post and author schema, parsing, resolving and planning produce exactly
the Access Plan with direct columns id, title and the author foreign
key, a single to-one eager join on author projecting id, and no to-many
fetch; the single storage fetch projects exactly samplepost.id,
samplepost.title, samplepost.author_id and sampleauthor.id. -/
theorem c1_scenario_a_plan :
    (parseQuery "\x7btitle,author\x7bid\x7d\x7d").isOk = true ∧
    planOf "\x7btitle,author\x7bid\x7d\x7d" samplePostSchema =
      Plan.mk ["id", "title", "author_id"]
        (.cons "author" (Plan.mk ["id"] .nil .nil) .nil) .nil ∧
    (mainColsP samplePostSchema
        (planOf "\x7btitle,author\x7bid\x7d\x7d" samplePostSchema)).toFinset =
      {"samplepost.id", "samplepost.title", "samplepost.author_id",
        "sampleauthor.id"} :=
  ⟨rfl, rfl, by decide⟩

/-- C2: an Access Plan holding only direct columns and to-one eager
joins executes in exactly one storage round trip whatever the row
count; every to-many entry adds exactly one batched fetch, so the total
trip count is one plus the number of to-many entries, a function of the
plan alone; the plans of the tests with one and with one to-many
relation cost one and two trips. -/
theorem c2_round_trips_bounded :
    (∀ p rows, toManyCountP p = 0 → execTrips p rows = 1) ∧
    (∀ p rows rows2, execTrips p rows = execTrips p rows2) ∧
    (∀ p rows, execTrips p rows = 1 + toManyCountP p) ∧
    (∀ rows, execTrips (planOf "\x7btitle,author\x7bid\x7d\x7d" samplePostSchema) rows = 1) ∧
    (∀ rows,
      execTrips (planOf "\x7btext, tags\x7bname\x7d\x7d" samplePostAllSchema) rows = 2) := by
  refine ⟨?_, ?_, ?_, ?_, ?_⟩
  · intro p rows h
    simp [execTrips, extraTripsP_eq_toManyCount, h]
  · intro p r1 r2
    simp [execTrips, extraTripsP_eq_toManyCount]
  · intro p rows
    simp [execTrips, extraTripsP_eq_toManyCount]
  · intro rows
    rfl
  · intro rows
    rfl

theorem c2_round_trips_bounded_witness :
    execTrips (planOf "\x7btitle,author\x7bid\x7d\x7d" samplePostSchema) 10 = 1 :=
  c2_round_trips_bounded.1
    (planOf "\x7btitle,author\x7bid\x7d\x7d" samplePostSchema) 10 (by rfl)

/-- C3 as stated is refuted: for the exclude operator query on the post
and author schema the excluded text column still contributes to the
Access Plan: the plan projects text in direct_columns and first_name in
the author eager join, and the single fetch selects every column of
both tables, exactly as test_using_exclude_operator asserts. -/
theorem c3_exclusion_counterexample :
    (parseQuery "\x7b-text, author\x7b-first_name\x7d\x7d").isOk = true ∧
    "text" ∈ (planOf "\x7b-text, author\x7b-first_name\x7d\x7d" samplePostSchema).direct ∧
    lookupP (planOf "\x7b-text, author\x7b-first_name\x7d\x7d" samplePostSchema).toOneEager
        "author" = some (planAllS sampleAuthorSchema) ∧
    "first_name" ∈ (planAllS sampleAuthorSchema).direct ∧
    (mainColsP samplePostSchema
        (planOf "\x7b-text, author\x7b-first_name\x7d\x7d" samplePostSchema)).toFinset =
      {"samplepost.id", "samplepost.text", "samplepost.title", "samplepost.author_id",
        "sampleauthor.id", "sampleauthor.first_name", "sampleauthor.last_name"} :=
  ⟨rfl, by decide, rfl, by decide, by decide⟩

/-- C3 amended: a fully excluded field is absent from the rendered
output of its level, at every level; but it still contributes a
ColumnRef to the Access Plan, because an exclusion mode level is
planned as a fetch of every declared column: for the exclude operator
query, text and author first_name are absent from the rendered output
while present in the planned columns. -/
theorem c3_exclusion_amended :
    (∀ fuel w fs s r n, (w || hasMinusL fs) = true →
      resolveT (fuel + 1) (.node w fs) s = .ok r →
      (minusNames fs).contains n = true →
      n ∉ RSet.names r) ∧
    (resolveOf "\x7b-text, author\x7b-first_name\x7d\x7d" samplePostSchema).toOption.map
        RSet.names = some ["id", "title", "author", "first_letter", "author_str"] ∧
    ((resolveOf "\x7b-text, author\x7b-first_name\x7d\x7d" samplePostSchema).toOption.map
        (fun r => (RSet.nested r "author").map RSet.names)) =
      some (some ["id", "last_name"]) ∧
    "text" ∈ (planOf "\x7b-text, author\x7b-first_name\x7d\x7d" samplePostSchema).direct ∧
    "first_name" ∈ (planAllS sampleAuthorSchema).direct := by
  refine ⟨?_, rfl, rfl, by decide, by decide⟩
  intro fuel w fs s r n hw h hn
  simp only [resolveT, hw, if_true] at h
  cases hx : resolveEx fuel s.fields fs with
  | error e => rw [hx] at h; exact absurd h (by simp)
  | ok l =>
    rw [hx] at h
    simp only [Except.ok.injEq] at h
    subst h
    have hnames := resolveEx_names fuel s.fields fs l hx
    show n ∉ namesR l
    rw [hnames]
    intro hmem
    have := List.of_mem_filter hmem
    simp at this
    exact this (by simpa using hn)

theorem c3_exclusion_amended_witness :
    "name" ∉ RSet.names (RSet.mk (.cons (.plain "id" none "id") .nil)) :=
  c3_exclusion_amended.1 20 false (.cons (.minus "name") .nil) sampleTagSchema
    (RSet.mk (.cons (.plain "id" none "id") .nil)) "name" (by rfl) (by rfl) (by rfl)

/-- C4: under NO_QUERY defaults a to-many relation declared in the
schema is not expanded: the defaulted rendered set is exactly the
declared names minus the to-many relation names, with to-one relations
recursing with their own defaults; a to-many relation is expanded
exactly when named in the query, as the posts query on the authors
schema shows, where posts becomes a separate batched fetch and the main
fetch touches only the author table. -/
theorem c4_no_query_to_many_suppressed :
    (∀ sl, nodupStr (declaredNames sl) = true →
      namesR (resolveNoQL sl) =
        (declaredNames sl).filter (fun n => !((toManyNames sl).contains n))) ∧
    RSet.names (resolveNoQS sampleAuthorFullSchema) = ["id", "first_name", "last_name"] ∧
    (resolveOf "\x7bfirst_name,posts\x7bid\x7d\x7d" sampleAuthorFullSchema).toOption.map
        RSet.names = some ["first_name", "posts"] ∧
    ((resolveOf "\x7bfirst_name,posts\x7bid\x7d\x7d" sampleAuthorFullSchema).toOption.map
        (fun r => (RSet.nested r "posts").map RSet.names)) = some (some ["id"]) ∧
    lookupP (planOf "\x7bfirst_name,posts\x7bid\x7d\x7d" sampleAuthorFullSchema).toManyFetch
        "posts" = some (Plan.mk ["id"] .nil .nil) ∧
    (mainColsP sampleAuthorFullSchema
        (planOf "\x7bfirst_name,posts\x7bid\x7d\x7d" sampleAuthorFullSchema)).toFinset =
      {"sampleauthor.id", "sampleauthor.first_name"} :=
  ⟨resolveNoQL_names, rfl, rfl, rfl, rfl, by decide⟩

theorem c4_no_query_to_many_suppressed_witness :
    namesR (resolveNoQL sampleAuthorFullSchema.fields) =
      (declaredNames sampleAuthorFullSchema.fields).filter
        (fun n => !((toManyNames sampleAuthorFullSchema.fields).contains n)) :=
  c4_no_query_to_many_suppressed.1 sampleAuthorFullSchema.fields (by rfl)

/-- C5 as stated is refuted: the request with unknown field names does
fail as a 400 outcome, but not before storage access: the pipeline
builds a partial Access Plan from the recognized fields and executes
the fetch, exactly the columns test_incorrect_parameters asserts on a
request that returns 400. -/
theorem c5_atomicity_counterexample :
    (handle .get none false
        (some "\x7btitle, incorrect, author\x7bfirst_name, test\x7d\x7d")
        samplePostSchema).status = 400 ∧
    (handle .get none false
        (some "\x7btitle, incorrect, author\x7bfirst_name, test\x7d\x7d")
        samplePostSchema).fetched =
      some ["samplepost.id", "samplepost.title", "samplepost.author_id",
        "sampleauthor.id", "sampleauthor.first_name"] ∧
    (handle .get none false
        (some "\x7btitle, incorrect, author\x7bfirst_name, test\x7d\x7d")
        samplePostSchema).fetched ≠ none :=
  ⟨rfl, rfl, by decide⟩

/-- C5 amended: a query naming undeclared fields fails strict
resolution with UnknownFieldError on the first unknown name and the
request surfaces a 400 outcome, but the failure is not atomic with
respect to storage: the planner skips the unknown names, a partial
Access Plan of the recognized fields is built, and its fetch executes
before the error surfaces. -/
theorem c5_atomicity_amended :
    resolveOf "\x7btitle, incorrect, author\x7bfirst_name, test\x7d\x7d" samplePostSchema =
      .error (.unknownField "incorrect") ∧
    (handle .get none false
        (some "\x7btitle, incorrect, author\x7bfirst_name, test\x7d\x7d")
        samplePostSchema).status = 400 ∧
    (handle .get none false
        (some "\x7btitle, incorrect, author\x7bfirst_name, test\x7d\x7d")
        samplePostSchema).fetched =
      some (mainColsP samplePostSchema
        (planOf "\x7btitle, incorrect, author\x7bfirst_name, test\x7d\x7d"
          samplePostSchema)) ∧
    (mainColsP samplePostSchema
        (planOf "\x7btitle, incorrect, author\x7bfirst_name, test\x7d\x7d"
          samplePostSchema)).toFinset =
      {"samplepost.id", "samplepost.title", "samplepost.author_id",
        "sampleauthor.id", "sampleauthor.first_name"} :=
  ⟨rfl, rfl, rfl, by decide⟩

/-- C6: a level resolved in wildcard mode with exclusion list E renders
exactly the declared fields minus E; with E empty, the star query at
the top level and at the nested author level render exactly every
declared field of that level. -/
theorem c6_wildcard_law :
    (∀ fuel s fs r, resolveT (fuel + 1) (.node true fs) s = .ok r →
      RSet.names r =
        (declaredNames s.fields).filter (fun n => !((minusNames fs).contains n))) ∧
    (resolveOf "\x7b*\x7d" samplePostSchema).toOption.map RSet.names =
      some ["id", "text", "title", "author", "first_letter", "author_str"] ∧
    ((resolveOf "\x7bauthor\x7b*\x7d\x7d" samplePostSchema).toOption.map
        (fun r => (RSet.nested r "author").map RSet.names)) =
      some (some ["id", "first_name", "last_name"]) := by
  refine ⟨?_, rfl, rfl⟩
  intro fuel s fs r h
  simp only [resolveT, Bool.true_or, if_true] at h
  cases hx : resolveEx fuel s.fields fs with
  | error e => rw [hx] at h; exact absurd h (by simp)
  | ok l =>
    rw [hx] at h
    simp only [Except.ok.injEq] at h
    subst h
    exact resolveEx_names fuel s.fields fs l hx

theorem c6_wildcard_law_witness :
    RSet.names (resolveNoQS samplePostSchema) =
      (declaredNames samplePostSchema.fields).filter
        (fun n => !((minusNames FList.nil).contains n)) :=
  c6_wildcard_law.1 20 samplePostSchema FList.nil (resolveNoQS samplePostSchema) (by rfl)

/-- C8: with force_query_usage in effect, the view level flag taking
precedence over the process wide setting, a read request without a
query fails as a 400 outcome before any storage access, the same
request with a query succeeds, and a mutating request is never gated by
the flag. -/
theorem c8_force_query_usage :
    (∀ sf vf, (handle .get (some vf) sf none samplePostSchema).status =
      (if vf then 400 else 200)) ∧
    (∀ sf vf, (handle .get (some vf) sf none samplePostSchema).fetched =
      (if vf then none else some (mainColsP samplePostSchema (planAllS samplePostSchema)))) ∧
    (handle .get none true none samplePostSchema).status = 400 ∧
    (handle .get none true none samplePostSchema).fetched = none ∧
    (handle .get none true (some "\x7btext\x7d") samplePostSchema).status = 200 ∧
    (handle .get none false none samplePostSchema).status = 200 ∧
    (∀ sf vf q, handle .put (some vf) sf q samplePostSchema =
      handle .put none false q samplePostSchema) ∧
    (handle .put (some true) true none samplePostSchema).status = 200 := by
  refine ⟨?_, ?_, rfl, rfl, rfl, rfl, ?_, rfl⟩
  · intro sf vf
    cases vf <;> cases sf <;> rfl
  · intro sf vf
    cases vf <;> cases sf <;> rfl
  · intro sf vf q
    rfl

theorem stripL_hasMinus : ∀ fs, hasMinusL (stripL fs) = hasMinusL fs
  | .nil => rfl
  | .cons (.plain n a) fs => by simp [stripL, stripF, hasMinusL, stripL_hasMinus fs]
  | .cons (.minus n) fs => by simp [stripL, stripF, hasMinusL]
  | .cons (.sub n a t) fs => by simp [stripL, stripF, hasMinusL, stripL_hasMinus fs]

theorem stripL_minusNames : ∀ fs, minusNames (stripL fs) = minusNames fs
  | .nil => rfl
  | .cons (.plain n a) fs => by simp [stripL, stripF, minusNames, stripL_minusNames fs]
  | .cons (.minus n) fs => by simp [stripL, stripF, minusNames, stripL_minusNames fs]
  | .cons (.sub n a t) fs => by simp [stripL, stripF, minusNames, stripL_minusNames fs]

theorem stripL_findSub_none : ∀ fs n, findSub fs n = none → findSub (stripL fs) n = none
  | .nil, n, _ => rfl
  | .cons (.plain m a) fs, n, h => by
    simp only [findSub] at h
    simp only [stripL, stripF, findSub]
    exact stripL_findSub_none fs n h
  | .cons (.minus m) fs, n, h => by
    simp only [findSub] at h
    simp only [stripL, stripF, findSub]
    exact stripL_findSub_none fs n h
  | .cons (.sub m a t) fs, n, h => by
    simp only [findSub] at h
    simp only [stripL, stripF, findSub]
    by_cases hm : m = n
    · simp [hm] at h
    · simp only [hm, if_false]
      simp only [hm, if_false] at h
      exact stripL_findSub_none fs n h

theorem stripL_findSub_some : ∀ fs n a t, findSub fs n = some (a, t) →
    findSub (stripL fs) n = some (none, stripT t)
  | .nil, n, a, t, h => by simp [findSub] at h
  | .cons (.plain m al) fs, n, a, t, h => by
    simp only [findSub] at h
    simp only [stripL, stripF, findSub]
    exact stripL_findSub_some fs n a t h
  | .cons (.minus m) fs, n, a, t, h => by
    simp only [findSub] at h
    simp only [stripL, stripF, findSub]
    exact stripL_findSub_some fs n a t h
  | .cons (.sub m al u) fs, n, a, t, h => by
    simp only [findSub] at h
    simp only [stripL, stripF, findSub]
    by_cases hm : m = n
    · simp only [hm, if_true] at h ⊢
      simp only [Option.some.injEq, Prod.mk.injEq] at h
      rw [h.2]
    · simp only [hm, if_false] at h ⊢
      exact stripL_findSub_some fs n a t h

mutual
theorem eraseAliasR_noQS : ∀ s, eraseAliasR (resolveNoQS s) = resolveNoQS s
  | .mk tbl pk fs => by
    simp [resolveNoQS, eraseAliasR, eraseAliasL_noQL fs]
theorem eraseAliasL_noQL : ∀ fs, eraseAliasL (resolveNoQL fs) = resolveNoQL fs
  | .nil => rfl
  | .cons (.col n c) fs => by
    simp [resolveNoQL, eraseAliasL, eraseAliasF, eraseAliasL_noQL fs]
  | .cons (.computed n ex) fs => by
    simp [resolveNoQL, eraseAliasL, eraseAliasF, eraseAliasL_noQL fs]
  | .cons (.toOne n fk nested) fs => by
    simp [resolveNoQL, eraseAliasL, eraseAliasF, eraseAliasR_noQS nested,
      eraseAliasL_noQL fs]
  | .cons (.toMany n nested) fs => by
    simp [resolveNoQL, eraseAliasL_noQL fs]
end

mutual
theorem resolveT_strip : ∀ fuel t s,
    resolveT fuel (stripT t) s = (resolveT fuel t s).map eraseAliasR
  | 0, t, s => rfl
  | fuel + 1, .node w fs, s => by
    simp only [stripT, resolveT, stripL_hasMinus]
    cases hw : (w || hasMinusL fs) with
    | true =>
      simp only [hw, if_true]
      rw [resolveEx_strip fuel s.fields fs]
      cases hx : resolveEx fuel s.fields fs with
      | error e => rfl
      | ok l => rfl
    | false =>
      simp only [hw, Bool.false_eq_true, if_false]
      rw [resolveInc_strip fuel fs s]
      cases hx : resolveInc fuel fs s with
      | error e => rfl
      | ok l => rfl

theorem resolveInc_strip : ∀ fuel fs s,
    resolveInc fuel (stripL fs) s = (resolveInc fuel fs s).map eraseAliasL
  | 0, fs, s => rfl
  | fuel + 1, .nil, s => rfl
  | fuel + 1, .cons f fs, s => by
    cases f with
    | plain n a =>
      simp only [stripL, stripF, resolveInc]
      cases hl : lookupField s.fields n with
      | none => rfl
      | some sf =>
        cases sf with
        | col m c =>
          rw [resolveInc_strip fuel fs s]
          cases hr : resolveInc fuel fs s with
          | error e => rfl
          | ok l => rfl
        | computed m ex =>
          rw [resolveInc_strip fuel fs s]
          cases hr : resolveInc fuel fs s with
          | error e => rfl
          | ok l => rfl
        | toOne m fk nested =>
          rw [resolveInc_strip fuel fs s]
          cases hr : resolveInc fuel fs s with
          | error e => rfl
          | ok l => rfl
        | toMany m nested =>
          rw [resolveInc_strip fuel fs s]
          cases hr : resolveInc fuel fs s with
          | error e => rfl
          | ok l => rfl
    | minus n => rfl
    | sub n a child =>
      simp only [stripL, stripF, resolveInc]
      cases hl : lookupField s.fields n with
      | none => rfl
      | some sf =>
        cases sf with
        | col m c => rfl
        | computed m ex => rfl
        | toOne m fk nested =>
          dsimp only
          rw [resolveT_strip fuel child nested]
          cases hc : resolveT fuel child nested with
          | error e => rfl
          | ok r =>
            rw [resolveInc_strip fuel fs s]
            cases hr : resolveInc fuel fs s with
            | error e => rfl
            | ok l => rfl
        | toMany m nested =>
          dsimp only
          rw [resolveT_strip fuel child nested]
          cases hc : resolveT fuel child nested with
          | error e => rfl
          | ok r =>
            rw [resolveInc_strip fuel fs s]
            cases hr : resolveInc fuel fs s with
            | error e => rfl
            | ok l => rfl

theorem resolveEx_strip : ∀ fuel sfs fs,
    resolveEx fuel sfs (stripL fs) = (resolveEx fuel sfs fs).map eraseAliasL
  | 0, sfs, fs => rfl
  | fuel + 1, .nil, fs => rfl
  | fuel + 1, .cons sf sfs, fs => by
    simp only [resolveEx, stripL_minusNames]
    cases hm : (minusNames fs).contains (fieldNameS sf) with
    | true =>
      simp only [hm, if_true]
      exact resolveEx_strip fuel sfs fs
    | false =>
      simp only [hm, Bool.false_eq_true, if_false]
      cases hf : findSub fs (fieldNameS sf) with
      | none =>
        rw [stripL_findSub_none fs (fieldNameS sf) hf]
        cases sf with
        | col m c =>
          dsimp only
          rw [resolveEx_strip fuel sfs fs]
          cases hr : resolveEx fuel sfs fs with
          | error e => rfl
          | ok l => rfl
        | computed m ex =>
          dsimp only
          rw [resolveEx_strip fuel sfs fs]
          cases hr : resolveEx fuel sfs fs with
          | error e => rfl
          | ok l => rfl
        | toOne m fk nested =>
          dsimp only
          rw [resolveEx_strip fuel sfs fs]
          cases hr : resolveEx fuel sfs fs with
          | error e => rfl
          | ok l =>
            simp [Except.map, eraseAliasL, eraseAliasF, eraseAliasR_noQS nested]
        | toMany m nested =>
          dsimp only
          rw [resolveEx_strip fuel sfs fs]
          cases hr : resolveEx fuel sfs fs with
          | error e => rfl
          | ok l =>
            simp [Except.map, eraseAliasL, eraseAliasF, eraseAliasR_noQS nested]
      | some p =>
        obtain ⟨a, child⟩ := p
        rw [stripL_findSub_some fs (fieldNameS sf) a child hf]
        cases sf with
        | col m c => rfl
        | computed m ex => rfl
        | toOne m fk nested =>
          dsimp only
          rw [resolveT_strip fuel child nested]
          cases hc : resolveT fuel child nested with
          | error e => rfl
          | ok r =>
            rw [resolveEx_strip fuel sfs fs]
            cases hr : resolveEx fuel sfs fs with
            | error e => rfl
            | ok l => rfl
        | toMany m nested =>
          dsimp only
          rw [resolveT_strip fuel child nested]
          cases hc : resolveT fuel child nested with
          | error e => rfl
          | ok r =>
            rw [resolveEx_strip fuel sfs fs]
            cases hr : resolveEx fuel sfs fs with
            | error e => rfl
            | ok l => rfl
end

mutual
theorem planTree_strip : ∀ fuel t s, planTree fuel (stripT t) s = planTree fuel t s
  | 0, t, s => rfl
  | fuel + 1, .node w fs, s => by
    simp only [stripT, planTree, stripL_hasMinus]
    cases hw : (w || hasMinusL fs) with
    | true => simp [hw]
    | false => simp [hw, planItems_strip fuel fs s]
theorem planItems_strip : ∀ fuel fs s, planItems fuel (stripL fs) s = planItems fuel fs s
  | 0, fs, s => rfl
  | fuel + 1, .nil, s => rfl
  | fuel + 1, .cons f fs, s => by
    cases f with
    | plain n a =>
      simp [stripL, stripF, planItems, planItems_strip fuel fs s]
    | minus n =>
      simp [stripL, stripF, planItems, planItems_strip fuel fs s]
    | sub n a child =>
      simp [stripL, stripF, planItems, planItems_strip fuel fs s,
        planTree_strip fuel child]
end

theorem requiredStorageL_erase : ∀ l, requiredStorageL (eraseAliasL l) = requiredStorageL l
  | .nil => rfl
  | .cons (.plain n a c) fs => by
    simp [eraseAliasL, eraseAliasF, requiredStorageL, requiredStorageL_erase fs]
  | .cons (.comp n a ex) fs => by
    simp [eraseAliasL, eraseAliasF, requiredStorageL, requiredStorageL_erase fs]
  | .cons (.relOne n a fk r) fs => by
    simp [eraseAliasL, eraseAliasF, requiredStorageL, requiredStorageL_erase fs]
  | .cons (.relMany n a r) fs => by
    simp [eraseAliasL, eraseAliasF, requiredStorageL, requiredStorageL_erase fs]

theorem namesR_erase : ∀ l, namesR (eraseAliasL l) = namesR l
  | .nil => rfl
  | .cons (.plain n a c) fs => by
    simp [eraseAliasL, eraseAliasF, namesR, rfieldName, namesR_erase fs]
  | .cons (.comp n a ex) fs => by
    simp [eraseAliasL, eraseAliasF, namesR, rfieldName, namesR_erase fs]
  | .cons (.relOne n a fk r) fs => by
    simp [eraseAliasL, eraseAliasF, namesR, rfieldName, namesR_erase fs]
  | .cons (.relMany n a r) fs => by
    simp [eraseAliasL, eraseAliasF, namesR, rfieldName, namesR_erase fs]

/-- C9: aliasing is transparent to storage: stripping every alias from
a query changes neither the planner output at any level nor the
resolver output beyond alias erasure, so required_storage and the
planned column set are unchanged while only the rendered names carry
the alias; concretely the aliased and unaliased forms of the title and
author first_name query produce identical Access Plans and fetch the
same columns. -/
theorem c9_alias_transparency :
    (∀ fuel t s, planTree fuel (stripT t) s = planTree fuel t s) ∧
    (∀ fuel t s, resolveT fuel (stripT t) s = (resolveT fuel t s).map eraseAliasR) ∧
    (∀ r, RSet.requiredStorage (eraseAliasR r) = RSet.requiredStorage r) ∧
    (∀ r, RSet.names (eraseAliasR r) = RSet.names r) ∧
    planOf "\x7bpostTitle: title, author\x7bfirstName: first_name\x7d\x7d"
        samplePostSchema =
      planOf "\x7btitle, author\x7bfirst_name\x7d\x7d" samplePostSchema ∧
    (mainColsP samplePostSchema
        (planOf "\x7bpostTitle: title, author\x7bfirstName: first_name\x7d\x7d"
          samplePostSchema)).toFinset =
      {"samplepost.id", "samplepost.title", "samplepost.author_id",
        "sampleauthor.id", "sampleauthor.first_name"} := by
  refine ⟨planTree_strip, resolveT_strip, ?_, ?_, rfl, by decide⟩
  · intro r
    cases r with
    | mk l => exact requiredStorageL_erase l
  · intro r
    cases r with
    | mk l => exact namesR_erase l

/-- C7: a derived field named in a query contributes exactly its
declared extra_storage_refs to required_storage and the plan fetches
those plus the row identifier, never a storage column named like the
field itself: first_letter with dependency title fetches exactly
samplepost.id and samplepost.title, and author_str with dependency
author first_name fetches the post id, the author foreign key and the
author id and first_name. -/
theorem c7_extra_storage_refs :
    (resolveOf "\x7bfirst_letter\x7d" samplePostSchema).toOption.map RSet.requiredStorage =
      some [ColRef.col "title"] ∧
    planOf "\x7bfirst_letter\x7d" samplePostSchema = Plan.mk ["id", "title"] .nil .nil ∧
    (mainColsP samplePostSchema (planOf "\x7bfirst_letter\x7d" samplePostSchema)).toFinset =
      {"samplepost.id", "samplepost.title"} ∧
    "first_letter" ∉ (planOf "\x7bfirst_letter\x7d" samplePostSchema).direct ∧
    (resolveOf "\x7bauthor_str\x7d" samplePostSchema).toOption.map RSet.requiredStorage =
      some [ColRef.rel "author" "first_name"] ∧
    planOf "\x7bauthor_str\x7d" samplePostSchema =
      Plan.mk ["id", "author_id"]
        (.cons "author" (Plan.mk ["id", "first_name"] .nil .nil) .nil) .nil ∧
    (mainColsP samplePostSchema (planOf "\x7bauthor_str\x7d" samplePostSchema)).toFinset =
      {"samplepost.id", "samplepost.author_id", "sampleauthor.id",
        "sampleauthor.first_name"} ∧
    "author_str" ∉ (planOf "\x7bauthor_str\x7d" samplePostSchema).direct :=
  ⟨rfl, rfl, by decide, by decide, rfl, rfl, by decide, by decide⟩

/-- C10: flatten returns a flat list without container elements, its
elements are exactly the non-container leaves of the input in depth
first left to right order, it is idempotent, and it is the identity on
an already flat list. -/
theorem c10_flatten_correct :
    (∀ xs, allAtoms (flatten xs) = true) ∧
    (∀ xs, (flatten xs).toList = leavesL xs) ∧
    (∀ xs, flatten (flatten xs) = flatten xs) ∧
    (∀ xs, allAtoms xs = true → flatten xs = xs) :=
  ⟨flatten_allAtoms, flatten_leaves,
    fun xs => flatten_flat_id (flatten xs) (flatten_allAtoms xs),
    flatten_flat_id⟩

theorem c10_flatten_correct_witness :
    allAtoms (ItemList.cons (Item.atom 1) (ItemList.cons (Item.atom 2) ItemList.nil)) = true ∧
    flatten (ItemList.cons (Item.atom 1) (ItemList.cons (Item.atom 2) ItemList.nil)) =
      ItemList.cons (Item.atom 1) (ItemList.cons (Item.atom 2) ItemList.nil) :=
  ⟨by decide,
    c10_flatten_correct.2.2.2
      (ItemList.cons (Item.atom 1) (ItemList.cons (Item.atom 2) ItemList.nil)) (by decide)⟩
